import Mathlib

/-!
# Verification of the session-scoped semantic cache and context manager

Shallow embedding of `rag_modules/session_cache_manager.py`.

Modelling conventions:
* Python dicts (which preserve insertion order and have unique keys) are
  association lists `List (String × α)`.  `alGet` is `d.get(k)` / `d[k]`,
  `alInsert` is `d[k] = v` (updates the first binding in place, otherwise
  appends a new binding at the end), `alErase` is `del d[k]` (removes the
  binding of the key; on valid dict states the key occurs at most once).
* Floats are exact: a cosine-similarity value is the algebraic number
  `num / sqrt radSq` represented by the pair `(num, radSq)`; `radSq = 0`
  encodes the IEEE `nan` produced by `0.0 / 0.0`.  Comparisons on such
  values are decided exactly over ℚ (see `SimVal.key` and the
  `Real.sqrt` soundness lemmas below); every comparison with `nan` is
  false, as in IEEE arithmetic.
* The embedding model is external: it is a parameter
  `embed : String → Option (List ℚ)`, `none` meaning that
  `embedding_model.embed_documents([query])` raised.
* Exceptions are explicit.  `check_semantic_cache` can raise an uncaught
  `KeyError` (line `session_embeddings = self.session_embeddings[session_id]`
  sits outside the `try`), so it returns `Except Unit (Option String)`.
  All other public operations wrap their body in `try/except`, so they are
  total; a caught exception leaves exactly the mutations already performed.
-/

namespace SessionCache

def alGet {α : Type} : List (String × α) → String → Option α
  | [], _ => none
  | p :: rest, k => if p.1 = k then some p.2 else alGet rest k

def alInsert {α : Type} : List (String × α) → String → α → List (String × α)
  | [], k, v => [(k, v)]
  | p :: rest, k, v => if p.1 = k then (k, v) :: rest else p :: alInsert rest k v

def alErase {α : Type} : List (String × α) → String → List (String × α)
  | [], _ => []
  | p :: rest, k => if p.1 = k then rest else p :: alErase rest k

/-! ## Cosine similarity (`_calculate_similarity`)

The Python code is
```
dot_product = np.dot(embedding1, embedding2)
norm1 = np.linalg.norm(embedding1)
norm2 = np.linalg.norm(embedding2)
return dot_product / (norm1 * norm2)
```
inside `try: ... except: return 0.0`.  Two facts of numpy semantics are
modelled here: a shape mismatch in `np.dot` raises `ValueError` (caught,
so the function returns `0.0`), while division of `np.float64` by zero
does **not** raise — it emits a `RuntimeWarning` and produces `nan`
(`0.0/0.0`; a zero norm forces a zero dot product in exact arithmetic) —
so the `except` branch is never reached for zero-norm inputs.

The returned float is the exact algebraic number
`dot / (sqrt (normSq a) * sqrt (normSq b)) = dot / sqrt (normSq a * normSq b)`,
represented as a `SimVal`. -/

/-- Exact representation of a similarity float: the value `num / sqrt radSq`
(with `radSq ≥ 0`); `radSq = 0` represents the IEEE `nan` from `0.0 / 0.0`. -/
structure SimVal where
  num : ℚ
  radSq : ℚ
deriving DecidableEq, Repr

def dot (a b : List ℚ) : ℚ := (List.zipWith (fun x y => x * y) a b).sum

def normSq (a : List ℚ) : ℚ := dot a a

def calculate_similarity (a b : List ℚ) : SimVal :=
  if a.length = b.length then { num := dot a b, radSq := normSq a * normSq b }
  else { num := 0, radSq := 1 }

/-- The float `0.0` (initial `best_similarity`). -/
def simZero : SimVal := { num := 0, radSq := 1 }

/-- Monotone rational key of a similarity value: `key (n / sqrt r) = n * |n| / r`.
Since `x ↦ x * |x|` is strictly monotone on ℝ, comparing keys decides the
real comparison exactly (proved in `key_lt_iff_val_lt` below). -/
def SimVal.key (s : SimVal) : ℚ := s.num * |s.num| / s.radSq

/-- `a > b` on similarity floats; false when either side is `nan`. -/
def simGt (a b : SimVal) : Prop := a.radSq ≠ 0 ∧ b.radSq ≠ 0 ∧ b.key < a.key

/-- `a >= t` against a rational constant; false when `a` is `nan`. -/
def simGe (a : SimVal) (t : ℚ) : Prop := a.radSq ≠ 0 ∧ t * |t| ≤ a.key

instance (a b : SimVal) : Decidable (simGt a b) := by unfold simGt; infer_instance

instance (a : SimVal) (t : ℚ) : Decidable (simGe a t) := by unfold simGe; infer_instance

/-! ## Data model -/

/-- One value of the inner dict `session_caches[sid]`:
`{'response': ..., 'timestamp': ...}`. -/
structure CacheData where
  response : String
  timestamp : String
deriving DecidableEq, Repr

/-- One element of `session_contexts[sid]`:
`{'query': ..., 'response': ..., 'timestamp': ...}`. -/
structure ContextTurn where
  query : String
  response : String
  timestamp : String
deriving DecidableEq, Repr

/-- The mutable state of a `SessionCacheManager`. -/
structure Manager where
  session_caches : List (String × List (String × CacheData))
  session_embeddings : List (String × List (String × List ℚ))
  session_contexts : List (String × List ContextTurn)
deriving DecidableEq, Repr

/-- State after `__init__`. -/
def initManager : Manager := { session_caches := [], session_embeddings := [], session_contexts := [] }

def cache_threshold : ℚ := 3 / 4

def max_session_cache_size : Nat := 50

def max_context_length : Nat := 10

/-! ## check_semantic_cache -/

/-- The scan loop of `check_semantic_cache`: iterates over the session's
cache entries in insertion order, keeping `(best_similarity, best_response)`;
entries whose query has no stored embedding (`session_embeddings.get` is
`None`) are skipped. -/
def cacheScan (qe : List ℚ) (se : List (String × List ℚ)) :
    List (String × CacheData) → SimVal → Option String → SimVal × Option String
  | [], best, resp => (best, resp)
  | (cq, cd) :: rest, best, resp =>
    match alGet se cq with
    | none => cacheScan qe se rest best resp
    | some ce =>
      let sim := calculate_similarity qe ce
      if simGt sim best ∧ simGe sim cache_threshold then
        cacheScan qe se rest sim (some cd.response)
      else
        cacheScan qe se rest best resp

def check_semantic_cache (embed : String → Option (List ℚ)) (m : Manager)
    (query session_id : String) : Except Unit (Option String) :=
  if session_id = "" then .ok none
  else
    match alGet m.session_caches session_id with
    | none => .ok none
    | some session_cache =>
      match alGet m.session_embeddings session_id with
      | none => .error ()
      | some session_embeddings =>
        if session_cache = [] then .ok none
        else
          match embed query with
          | none => .ok none
          | some query_embedding =>
            match (cacheScan query_embedding session_embeddings session_cache simZero none).2 with
            | some best_response =>
              if best_response = "" then .ok none else .ok (some best_response)
            | none => .ok none

/-! ## add_to_semantic_cache

The whole body sits inside `try: ... except: log`.  Mutations performed
before an exception (a caught embedding failure or `KeyError`) persist,
because the inner dicts are mutated in place through aliases.  Crucially,
the capacity eviction happens *before* the embedding is computed. -/

/-- Lines 104–112: compute the query embedding (an exception here is caught
by the outer `except`, leaving the state `m` — with any earlier eviction
already applied), then store `response` and the embedding under `query`. -/
def addStore (embed : String → Option (List ℚ)) (m : Manager)
    (sc : List (String × CacheData)) (se : List (String × List ℚ))
    (query response session_id now : String) : Manager :=
  match embed query with
  | none => m
  | some query_embedding =>
    { m with
      session_caches :=
        alInsert m.session_caches session_id
          (alInsert sc query { response := response, timestamp := now }),
      session_embeddings :=
        alInsert m.session_embeddings session_id (alInsert se query query_embedding) }

/-- Lines 97–112: evict the oldest entry when the session is at capacity,
then store.  `del session_embeddings[oldest_key]` raises `KeyError` when the
key is absent there (unreachable on valid states); the exception is caught
by the outer `except`, but the eviction from `session_cache` has already
happened and persists. -/
def addBody (embed : String → Option (List ℚ)) (m : Manager)
    (sc : List (String × CacheData)) (se : List (String × List ℚ))
    (query response session_id now : String) : Manager :=
  if max_session_cache_size ≤ sc.length then
    match sc with
    | [] => m
    | (oldest_key, _) :: _ =>
      let sc1 := alErase sc oldest_key
      let m1 := { m with session_caches := alInsert m.session_caches session_id sc1 }
      match alGet se oldest_key with
      | none => m1
      | some _ =>
        let se1 := alErase se oldest_key
        let m2 := { m1 with session_embeddings := alInsert m1.session_embeddings session_id se1 }
        addStore embed m2 sc1 se1 query response session_id now
  else
    addStore embed m sc se query response session_id now

def add_to_semantic_cache (embed : String → Option (List ℚ)) (m : Manager)
    (query response session_id now : String) : Manager :=
  if session_id = "" then m
  else
    match alGet m.session_caches session_id with
    | none =>
      let m1 : Manager :=
        { m with
          session_caches := alInsert m.session_caches session_id [],
          session_embeddings := alInsert m.session_embeddings session_id [] }
      addBody embed m1 [] [] query response session_id now
    | some sc =>
      match alGet m.session_embeddings session_id with
      | none => m
      | some se => addBody embed m sc se query response session_id now

/-! ## add_to_context -/

def add_to_context (m : Manager) (session_id query response now : String) : Manager :=
  if session_id = "" then m
  else
    let context := (alGet m.session_contexts session_id).getD []
    let context1 := context ++ [{ query := query, response := response, timestamp := now }]
    let context2 := if max_context_length < context1.length then context1.tail else context1
    { m with session_contexts := alInsert m.session_contexts session_id context2 }

/-! ## get_context_for_query -/

/-- The two lines rendered per recent turn:
`"用户问: {query}"` and `"AI答: {response[:100]}..."`. -/
def renderTurn (item : ContextTurn) : List String :=
  ["用户问: " ++ item.query, "AI答: " ++ item.response.take 100 ++ "..."]

def get_context_for_query (m : Manager) (session_id current_query : String) : String :=
  if session_id = "" then current_query
  else
    match alGet m.session_contexts session_id with
    | none => current_query
    | some context =>
      if context = [] then current_query
      else
        let recent_context := if 3 < context.length then context.drop (context.length - 3) else context
        let context_parts :=
          (recent_context.map renderTurn).flatten ++ ["当前问题: " ++ current_query]
        String.intercalate "\n" context_parts

/-! ## get_session_stats, clear_session_cache, clear_all_caches -/

structure Stats where
  total_sessions : Nat
  total_cached_queries : Nat
  total_contexts : Nat
  cache_threshold : ℚ
  max_session_cache_size : Nat
  max_context_length : Nat
deriving DecidableEq, Repr

def get_session_stats (m : Manager) : Stats :=
  { total_sessions := m.session_caches.length
    total_cached_queries := (m.session_caches.map (fun p => p.2.length)).sum
    total_contexts := (m.session_contexts.map (fun p => p.2.length)).sum
    cache_threshold := cache_threshold
    max_session_cache_size := max_session_cache_size
    max_context_length := max_context_length }

def clear_session_cache (m : Manager) (session_id : String) : Manager :=
  { session_caches := alErase m.session_caches session_id
    session_embeddings := alErase m.session_embeddings session_id
    session_contexts := alErase m.session_contexts session_id }

def clear_all_caches (_ : Manager) : Manager := initManager

/-! ## Specification-side definitions and reachability -/

/-- The (similarity, response) pairs the scan of `check_semantic_cache`
actually considers, in scan order: entries whose query lacks a stored
embedding are skipped. -/
def simsOf (qe : List ℚ) (se : List (String × List ℚ)) (sc : List (String × CacheData)) :
    List (SimVal × String) :=
  sc.filterMap (fun p => (alGet se p.1).map (fun ce => (calculate_similarity qe ce, p.2.response)))

/-- Modelled from the spec's words: "selects the entry with the maximum
similarity ... and ≥ 0.75 ... exact ties keep the first scanned" — the first
scanned entry whose similarity clears the threshold and is not exceeded by
any entry of the scan. -/
def specBest (l : List (SimVal × String)) : Option (SimVal × String) :=
  l.find? (fun p => decide (simGe p.1 cache_threshold ∧ ∀ q ∈ l, ¬ simGt q.1 p.1))

/-- The scan loop of `check_semantic_cache` abstracted over the list of
(similarity, response) pairs it considers. -/
def scanFold : List (SimVal × String) → SimVal → Option String → SimVal × Option String
  | [], best, resp => (best, resp)
  | p :: rest, best, resp =>
    if simGt p.1 best ∧ simGe p.1 cache_threshold then scanFold rest p.1 (some p.2)
    else scanFold rest best resp

/-- Every session present in `session_caches` has its (always co-created,
co-deleted) companion dict in `session_embeddings`. -/
def Paired (m : Manager) : Prop :=
  ∀ p ∈ m.session_caches, (alGet m.session_embeddings p.1).isSome = true

def NodupKeys {α : Type} (l : List (String × α)) : Prop := (l.map Prod.fst).Nodup

instance {α : Type} (l : List (String × α)) : Decidable (NodupKeys l) := by
  unfold NodupKeys
  infer_instance

/-- Dict validity: unique keys in each map, plus the caches/embeddings pairing. -/
def GoodState (m : Manager) : Prop :=
  NodupKeys m.session_caches ∧ NodupKeys m.session_embeddings ∧
    NodupKeys m.session_contexts ∧ Paired m

/-- States reachable from `__init__` through the mutating public operations
(`check_semantic_cache`, `get_context_for_query` and `get_session_stats` do
not mutate).  Each call may see arbitrary embedder behaviour and clock. -/
inductive Reachable : Manager → Prop
  | init : Reachable initManager
  | add_cache (embed : String → Option (List ℚ)) (m : Manager)
      (query response session_id now : String) :
      Reachable m → Reachable (add_to_semantic_cache embed m query response session_id now)
  | add_ctx (m : Manager) (session_id query response now : String) :
      Reachable m → Reachable (add_to_context m session_id query response now)
  | clear (m : Manager) (session_id : String) :
      Reachable m → Reachable (clear_session_cache m session_id)
  | clear_all (m : Manager) : Reachable m → Reachable (clear_all_caches m)

/-- Number of sessions holding any state (at least one cache entry or one
context turn) — the quantity claim C8 says `total_sessions` reports. -/
def sessionsWithState (m : Manager) : Nat :=
  (((m.session_caches.filter (fun p => !p.2.isEmpty)).map Prod.fst) ++
    ((m.session_contexts.filter (fun p => !p.2.isEmpty)).map Prod.fst)).dedup.length

/-! ## Association-list lemmas -/

theorem alGet_alInsert_self {α : Type} (l : List (String × α)) (k : String) (v : α) :
    alGet (alInsert l k v) k = some v := by
  induction l with
  | nil => simp [alInsert, alGet]
  | cons p rest ih =>
    by_cases h : p.1 = k
    · simp [alInsert, alGet, h]
    · simp [alInsert, alGet, h, ih]

theorem alGet_alInsert_ne {α : Type} (l : List (String × α)) (k k' : String) (v : α)
    (h : k' ≠ k) : alGet (alInsert l k v) k' = alGet l k' := by
  induction l with
  | nil =>
    have hne : ¬ k = k' := fun hk => h hk.symm
    simp [alInsert, alGet, hne]
  | cons p rest ih =>
    by_cases hp : p.1 = k
    · subst hp
      have hne : ¬ p.1 = k' := fun hk => h hk.symm
      simp [alInsert, alGet, hne]
    · simp [alInsert, alGet, hp, ih]

theorem alInsert_of_alGet_none {α : Type} (l : List (String × α)) (k : String) (v : α)
    (h : alGet l k = none) : alInsert l k v = l ++ [(k, v)] := by
  induction l with
  | nil => simp [alInsert]
  | cons p rest ih =>
    by_cases hp : p.1 = k
    · simp [alGet, hp] at h
    · simp [alGet, hp] at h
      simp [alInsert, hp, ih h]

theorem length_alInsert_le {α : Type} (l : List (String × α)) (k : String) (v : α) :
    (alInsert l k v).length ≤ l.length + 1 := by
  induction l with
  | nil => simp [alInsert]
  | cons p rest ih =>
    by_cases hp : p.1 = k
    · simp [alInsert, hp]
    · simpa [alInsert, hp] using Nat.succ_le_succ ih

theorem length_alInsert_of_alGet_isSome {α : Type} (l : List (String × α)) (k : String) (v : α)
    (h : (alGet l k).isSome = true) : (alInsert l k v).length = l.length := by
  induction l with
  | nil => simp [alGet] at h
  | cons p rest ih =>
    by_cases hp : p.1 = k
    · simp [alInsert, hp]
    · simp [alGet, hp] at h
      simp [alInsert, hp, ih h]

theorem alErase_of_alGet_none {α : Type} (l : List (String × α)) (k : String)
    (h : alGet l k = none) : alErase l k = l := by
  induction l with
  | nil => simp [alErase]
  | cons p rest ih =>
    by_cases hp : p.1 = k
    · simp [alGet, hp] at h
    · simp [alGet, hp] at h
      simp [alErase, hp, ih h]

theorem alGet_alErase_ne {α : Type} (l : List (String × α)) (k k' : String)
    (h : k' ≠ k) : alGet (alErase l k) k' = alGet l k' := by
  induction l with
  | nil => simp [alErase]
  | cons p rest ih =>
    by_cases hp : p.1 = k
    · subst hp
      have hne : ¬ p.1 = k' := fun hk => h hk.symm
      simp [alErase, alGet, hne]
    · simp [alErase, alGet, hp, ih]

theorem alGet_eq_some_mem {α : Type} (l : List (String × α)) (k : String) (v : α)
    (h : alGet l k = some v) : (k, v) ∈ l := by
  induction l with
  | nil => simp [alGet] at h
  | cons p rest ih =>
    obtain ⟨a, b⟩ := p
    by_cases hp : a = k
    · simp only [alGet, if_pos hp] at h
      obtain rfl : b = v := by simpa using h
      subst hp
      exact List.mem_cons_self _ _
    · simp only [alGet, if_neg hp] at h
      exact List.mem_cons_of_mem _ (ih h)

theorem alGet_isSome_of_mem {α : Type} (l : List (String × α)) (p : String × α)
    (h : p ∈ l) : (alGet l p.1).isSome = true := by
  induction l with
  | nil => simp at h
  | cons q rest ih =>
    rcases List.mem_cons.1 h with rfl | h
    · simp [alGet]
    · by_cases hq : q.1 = p.1
      · simp [alGet, hq]
      · simpa [alGet, hq] using ih h

theorem alGet_isSome_iff_mem_keys {α : Type} (l : List (String × α)) (k : String) :
    (alGet l k).isSome = true ↔ k ∈ l.map Prod.fst := by
  induction l with
  | nil => simp [alGet]
  | cons p rest ih =>
    by_cases hp : p.1 = k
    · simp [alGet, hp]
    · have hne : ¬ k = p.1 := fun hk => hp hk.symm
      simp [alGet, hp, ih, hne]

theorem keys_alErase_sublist {α : Type} (l : List (String × α)) (k : String) :
    ((alErase l k).map Prod.fst).Sublist (l.map Prod.fst) := by
  induction l with
  | nil => simp [alErase]
  | cons p rest ih =>
    by_cases hp : p.1 = k
    · simp [alErase, hp]
    · simpa [alErase, hp] using ih.cons₂ p.1

theorem keys_alInsert {α : Type} (l : List (String × α)) (k : String) (v : α) :
    (alInsert l k v).map Prod.fst = if (alGet l k).isSome then l.map Prod.fst
      else l.map Prod.fst ++ [k] := by
  induction l with
  | nil => simp [alInsert, alGet]
  | cons p rest ih =>
    by_cases hp : p.1 = k
    · simp [alInsert, alGet, hp]
    · by_cases hr : (alGet rest k).isSome
      · simp [alInsert, alGet, hp, hr] at ih ⊢
        simp [ih]
      · simp [alInsert, alGet, hp, hr] at ih ⊢
        simp [ih]

theorem nodupKeys_alInsert {α : Type} (l : List (String × α)) (k : String) (v : α)
    (h : NodupKeys l) : NodupKeys (alInsert l k v) := by
  unfold NodupKeys at h ⊢
  rw [keys_alInsert]
  by_cases hs : (alGet l k).isSome
  · simpa [hs] using h
  · have hk : k ∉ l.map Prod.fst := fun hmem =>
      hs ((alGet_isSome_iff_mem_keys l k).2 hmem)
    simp only [hs, if_false]
    refine h.append (List.nodup_singleton k) ?_
    intro a ha hb
    rcases List.mem_singleton.1 hb with rfl
    exact hk ha

theorem nodupKeys_alErase {α : Type} (l : List (String × α)) (k : String)
    (h : NodupKeys l) : NodupKeys (alErase l k) :=
  (keys_alErase_sublist l k).nodup h

theorem alGet_alErase_self {α : Type} (l : List (String × α)) (k : String)
    (h : NodupKeys l) : alGet (alErase l k) k = none := by
  induction l with
  | nil => rfl
  | cons p rest ih =>
    unfold NodupKeys at h
    simp only [List.map_cons, List.nodup_cons] at h
    by_cases hp : p.1 = k
    · subst hp
      have he : alErase (p :: rest) p.1 = rest := by simp [alErase]
      rw [he]
      cases hg : alGet rest p.1 with
      | none => rfl
      | some v =>
        exact absurd (List.mem_map.2 ⟨(p.1, v), alGet_eq_some_mem _ _ _ hg, rfl⟩) h.1
    · simp [alErase, alGet, hp, ih h.2]

/-- Removing the binding of a key subtracts that binding's measure from a
summed map (stats bookkeeping after `clear_session_cache`). -/
theorem sum_map_alErase {α : Type} (l : List (String × α)) (k : String)
    (c : α) (g : α → Nat) (h : alGet l k = some c) :
    ((alErase l k).map (fun p => g p.2)).sum + g c = (l.map (fun p => g p.2)).sum := by
  induction l with
  | nil => simp [alGet] at h
  | cons p rest ih =>
    by_cases hp : p.1 = k
    · simp only [alGet, if_pos hp] at h
      obtain rfl : c = p.2 := by simpa using h.symm
      simp [alErase, hp, Nat.add_comm]
    · simp only [alGet, if_neg hp] at h
      have hih := ih h
      simp only [alErase, if_neg hp, List.map_cons, List.sum_cons]
      omega

/-! ## Order facts about similarity comparisons -/

theorem simGt_irrefl (a : SimVal) : ¬ simGt a a := by
  unfold simGt
  intro h
  exact lt_irrefl _ h.2.2

theorem simGt_trans (a b c : SimVal) (h1 : simGt a b) (h2 : simGt b c) : simGt a c := by
  unfold simGt at *
  exact ⟨h1.1, h2.2.1, lt_trans h2.2.2 h1.2.2⟩

theorem simGt_asymm (a b : SimVal) (h : simGt a b) : ¬ simGt b a := by
  unfold simGt at *
  intro h2
  exact lt_asymm h.2.2 h2.2.2

theorem simGt_of_not_simGt_right (c p y : SimVal) (h1 : simGt c p) (h2 : ¬ simGt c y)
    (hy : y.radSq ≠ 0) : simGt y p := by
  unfold simGt at *
  have hcy : ¬ SimVal.key y < SimVal.key c := fun hk => h2 ⟨h1.1, hy, hk⟩
  exact ⟨hy, h1.2.1, lt_of_lt_of_le h1.2.2 (not_lt.1 hcy)⟩

theorem simGe_mono (b a : SimVal) (t : ℚ) (h1 : simGe b t) (h2 : simGt a b) : simGe a t := by
  unfold simGe simGt at *
  exact ⟨h2.1, le_trans h1.2 (le_of_lt h2.2.2)⟩

theorem not_simGt_of_not_simGt_base (p b y : SimVal) (hnb : ¬ simGt p b) (h1 : simGt y b) :
    ¬ simGt p y := by
  unfold simGt at *
  rintro ⟨hp, hy, hk⟩
  exact hnb ⟨hp, h1.2.1, lt_trans h1.2.2 hk⟩

theorem not_simGt_of_below_thresh (p y : SimVal) (t : ℚ) (hnt : ¬ simGe p t) (h2 : simGe y t) :
    ¬ simGt p y := by
  unfold simGe simGt at *
  rintro ⟨hp, hy, hk⟩
  exact hnt ⟨hp, le_trans h2.2 (le_of_lt hk)⟩

/-! ## The scan loop computes the first-scanned maximum -/

/-- `p` is the entry the scan started at accumulator `b` ends on: it beats
`b`, clears the threshold, and no entry of `l` is strictly better. -/
def qualifies (b : SimVal) (l : List (SimVal × String)) (p : SimVal × String) : Prop :=
  simGt p.1 b ∧ simGe p.1 cache_threshold ∧ ∀ q ∈ l, ¬ simGt q.1 p.1

instance (b : SimVal) (l : List (SimVal × String)) (p : SimVal × String) :
    Decidable (qualifies b l p) := by
  unfold qualifies
  infer_instance

theorem findCongr {α : Type} (f g : α → Bool) (l : List α)
    (h : ∀ x ∈ l, f x = g x) : l.find? f = l.find? g := by
  induction l with
  | nil => rfl
  | cons a l' ih =>
    have ha := h a (List.mem_cons_self _ _)
    cases hf : f a with
    | true => rw [List.find?_cons_of_pos _ hf, List.find?_cons_of_pos _ (ha.symm.trans hf)]
    | false =>
      rw [List.find?_cons_of_neg _ (by simp [hf]), List.find?_cons_of_neg _ (by simp [← ha, hf])]
      exact ih (fun x hx => h x (List.mem_cons_of_mem _ hx))

/-- Any nonempty qualifying set has a first maximal element. -/
theorem exists_max_qual (l : List (SimVal × String)) (b : SimVal)
    (h : ∃ x ∈ l, simGt x.1 b ∧ simGe x.1 cache_threshold) :
    ∃ y ∈ l, simGt y.1 b ∧ simGe y.1 cache_threshold ∧ ∀ z ∈ l, ¬ simGt z.1 y.1 := by
  induction l with
  | nil => simp at h
  | cons a l' ih =>
    by_cases hl' : ∃ x ∈ l', simGt x.1 b ∧ simGe x.1 cache_threshold
    · obtain ⟨y, hymem, hy1, hy2, hy3⟩ := ih hl'
      by_cases hay : simGt a.1 y.1
      · refine ⟨a, List.mem_cons_self _ _, simGt_trans _ _ _ hay hy1,
          simGe_mono _ _ _ hy2 hay, ?_⟩
        intro z hz
        rcases List.mem_cons.1 hz with rfl | hz'
        · exact simGt_irrefl _
        · exact fun hza => hy3 z hz' (simGt_trans _ _ _ hza hay)
      · refine ⟨y, List.mem_cons_of_mem _ hymem, hy1, hy2, ?_⟩
        intro z hz
        rcases List.mem_cons.1 hz with rfl | hz'
        · exact hay
        · exact hy3 z hz'
    · obtain ⟨x, hxmem, hx⟩ := h
      have hxa : x = a := by
        rcases List.mem_cons.1 hxmem with rfl | hx'
        · rfl
        · exact absurd ⟨x, hx', hx⟩ hl'
      subst hxa
      refine ⟨x, List.mem_cons_self _ _, hx.1, hx.2, ?_⟩
      intro z hz
      rcases List.mem_cons.1 hz with rfl | hz'
      · exact simGt_irrefl _
      · exact fun hzx =>
          hl' ⟨z, hz', simGt_trans _ _ _ hzx hx.1, simGe_mono _ _ _ hx.2 hzx⟩

/-- The scan loop ends on the first entry that clears the threshold, beats
the initial accumulator, and is maximal over the whole scan — or keeps the
accumulator when there is no such entry. -/
theorem scanFold_eq_find (l : List (SimVal × String)) (b : SimVal) (r : Option String) :
    scanFold l b r =
      match l.find? (fun p => decide (qualifies b l p)) with
      | some p => (p.1, some p.2)
      | none => (b, r) := by
  induction l generalizing b r with
  | nil => rfl
  | cons p rest ih =>
    have hL : scanFold (p :: rest) b r =
        if simGt p.1 b ∧ simGe p.1 cache_threshold then scanFold rest p.1 (some p.2)
        else scanFold rest b r := rfl
    by_cases hstep : simGt p.1 b ∧ simGe p.1 cache_threshold
    · by_cases hmax : ∀ q ∈ p :: rest, ¬ simGt q.1 p.1
      · have hpred : decide (qualifies b (p :: rest) p) = true := by
          simp only [decide_eq_true_eq]
          exact ⟨hstep.1, hstep.2, hmax⟩
        simp only [List.find?, hpred]
        rw [hL, if_pos hstep, ih]
        have hnone : rest.find? (fun q => decide (qualifies p.1 rest q)) = none := by
          rw [List.find?_eq_none]
          intro q hq
          simp only [decide_eq_true_eq]
          exact fun hqual => hmax q (List.mem_cons_of_mem _ hq) hqual.1
        rw [hnone]
      · push_neg at hmax
        obtain ⟨q0, hq0mem, hq0⟩ := hmax
        have hpfail : decide (qualifies b (p :: rest) p) = false := by
          simp only [decide_eq_false_iff_not]
          rintro ⟨_, _, h3⟩
          exact h3 q0 hq0mem hq0
        simp only [List.find?, hpfail]
        rw [hL, if_pos hstep, ih]
        have hq0ne : q0 ≠ p := fun h => simGt_irrefl p.1 (h ▸ hq0)
        have hq0rest : q0 ∈ rest := (List.mem_cons.1 hq0mem).resolve_left hq0ne
        have hcongr : ∀ y ∈ rest,
            (fun q => decide (qualifies p.1 rest q)) y =
              (fun q => decide (qualifies b (p :: rest) q)) y := by
          intro y _
          simp only [decide_eq_decide]
          constructor
          · rintro ⟨h1, h2, h3⟩
            refine ⟨simGt_trans _ _ _ h1 hstep.1, h2, ?_⟩
            intro z hz
            rcases List.mem_cons.1 hz with rfl | hz'
            · exact simGt_asymm _ _ h1
            · exact h3 z hz'
          · rintro ⟨h1, h2, h3⟩
            refine ⟨?_, h2, fun z hz => h3 z (List.mem_cons_of_mem _ hz)⟩
            exact simGt_of_not_simGt_right _ _ _ hq0 (h3 q0 hq0mem) h2.1
        rw [← findCongr _ _ _ hcongr]
        cases hf : rest.find? (fun q => decide (qualifies p.1 rest q)) with
        | some y => rfl
        | none =>
          exfalso
          rw [List.find?_eq_none] at hf
          have hex : ∃ x ∈ rest, simGt x.1 p.1 ∧ simGe x.1 cache_threshold :=
            ⟨q0, hq0rest, hq0, simGe_mono _ _ _ hstep.2 hq0⟩
          obtain ⟨y, hymem, hy1, hy2, hy3⟩ := exists_max_qual rest p.1 hex
          have hq : ¬ qualifies p.1 rest y := by simpa using hf y hymem
          exact hq ⟨hy1, hy2, hy3⟩
    · have hpfail : decide (qualifies b (p :: rest) p) = false := by
        simp only [decide_eq_false_iff_not]
        rintro ⟨h1, h2, _⟩
        exact hstep ⟨h1, h2⟩
      simp only [List.find?, hpfail]
      rw [hL, if_neg hstep, ih]
      have hcongr : ∀ y ∈ rest,
          (fun q => decide (qualifies b rest q)) y =
            (fun q => decide (qualifies b (p :: rest) q)) y := by
        intro y _
        simp only [decide_eq_decide]
        constructor
        · rintro ⟨h1, h2, h3⟩
          refine ⟨h1, h2, ?_⟩
          intro z hz
          rcases List.mem_cons.1 hz with rfl | hz'
          · rcases not_and_or.mp hstep with hnb | hnt
            · exact not_simGt_of_not_simGt_base _ _ _ hnb h1
            · exact not_simGt_of_below_thresh _ _ _ hnt h2
          · exact h3 z hz'
        · rintro ⟨h1, h2, h3⟩
          exact ⟨h1, h2, fun z hz => h3 z (List.mem_cons_of_mem _ hz)⟩
      rw [← findCongr _ _ _ hcongr]

theorem cacheScan_eq_scanFold (qe : List ℚ) (se : List (String × List ℚ))
    (l : List (String × CacheData)) (b : SimVal) (r : Option String) :
    cacheScan qe se l b r = scanFold (simsOf qe se l) b r := by
  induction l generalizing b r with
  | nil => rfl
  | cons p rest ih =>
    obtain ⟨cq, cd⟩ := p
    cases hg : alGet se cq with
    | none => simp [cacheScan, simsOf, List.filterMap_cons, hg, ih, scanFold]
    | some ce => simp [cacheScan, simsOf, List.filterMap_cons, hg, ih, scanFold]

theorem threshold_key : cache_threshold * |cache_threshold| = 9 / 16 := by
  rw [abs_of_pos (by norm_num [cache_threshold])]
  norm_num [cache_threshold]

theorem simZero_key : simZero.key = 0 := by
  simp [simZero, SimVal.key]

/-- `specBest` (the spec's selection rule) coincides with the loop-style
first qualifying entry over the degenerate initial accumulator `0.0`:
clearing the `0.75` threshold already beats a best-so-far of `0`. -/
theorem specBest_eq_find (l : List (SimVal × String)) :
    specBest l = l.find? (fun p => decide (qualifies simZero l p)) := by
  unfold specBest
  apply findCongr
  intro x _
  simp only [decide_eq_decide]
  constructor
  · rintro ⟨h1, h2⟩
    refine ⟨?_, h1, h2⟩
    unfold simGe at h1
    refine ⟨h1.1, by norm_num [simZero], ?_⟩
    rw [simZero_key]
    have h9 : (9 : ℚ) / 16 ≤ x.1.key := threshold_key ▸ h1.2
    linarith
  · rintro ⟨_, h2, h3⟩
    exact ⟨h2, h3⟩

/-! ## Soundness of the exact similarity encoding

A `SimVal` `s` with `0 < s.radSq` denotes the real number
`s.num / Real.sqrt s.radSq`.  The rational `key` comparisons used by
`simGt`/`simGe` decide the corresponding real comparisons exactly, because
`x ↦ x * |x|` is strictly monotone and carries `n / sqrt r` to `n * |n| / r`. -/

theorem mul_abs_strictMono : StrictMono (fun x : ℝ => x * |x|) := by
  intro a b hab
  rcases le_or_lt 0 a with ha | ha
  · have hb : 0 < b := lt_of_le_of_lt ha hab
    simp only [abs_of_nonneg ha, abs_of_pos hb]
    exact mul_self_lt_mul_self ha hab
  · rcases le_or_lt 0 b with hb | hb
    · have h1 : a * |a| < 0 := mul_neg_of_neg_of_pos ha (abs_pos.2 (ne_of_lt ha))
      have h2 : (0 : ℝ) ≤ b * |b| := mul_nonneg hb (abs_nonneg b)
      exact lt_of_lt_of_le h1 h2
    · simp only [abs_of_neg ha, abs_of_neg hb]
      nlinarith

theorem simVal_key_cast (u : SimVal) (hu : 0 < u.radSq) :
    ((u.key : ℚ) : ℝ) =
      ((u.num : ℝ) / Real.sqrt (u.radSq : ℝ)) * |(u.num : ℝ) / Real.sqrt (u.radSq : ℝ)| := by
  have hr0 : (0 : ℝ) ≤ (u.radSq : ℝ) := by exact_mod_cast le_of_lt hu
  have hsq : 0 < Real.sqrt (u.radSq : ℝ) := Real.sqrt_pos.2 (by exact_mod_cast hu)
  rw [abs_div, abs_of_pos hsq, div_mul_div_comm, Real.mul_self_sqrt hr0]
  unfold SimVal.key
  push_cast
  ring

theorem simGt_iff_val (s t : SimVal) (hs : 0 < s.radSq) (ht : 0 < t.radSq) :
    simGt s t ↔
      (t.num : ℝ) / Real.sqrt (t.radSq : ℝ) < (s.num : ℝ) / Real.sqrt (s.radSq : ℝ) := by
  unfold simGt
  rw [← mul_abs_strictMono.lt_iff_lt, ← simVal_key_cast s hs, ← simVal_key_cast t ht]
  constructor
  · intro h
    exact_mod_cast h.2.2
  · intro h
    exact ⟨ne_of_gt hs, ne_of_gt ht, by exact_mod_cast h⟩

theorem simGe_iff_val (s : SimVal) (t : ℚ) (hs : 0 < s.radSq) :
    simGe s t ↔ (t : ℝ) ≤ (s.num : ℝ) / Real.sqrt (s.radSq : ℝ) := by
  unfold simGe
  rw [← mul_abs_strictMono.le_iff_le, ← simVal_key_cast s hs]
  have hcast : ((t : ℝ)) * |(t : ℝ)| = ((t * |t| : ℚ) : ℝ) := by
    push_cast
    ring
  rw [hcast]
  constructor
  · intro h
    exact_mod_cast h.2
  · intro h
    exact ⟨ne_of_gt hs, by exact_mod_cast h⟩

theorem normSq_nonneg (a : List ℚ) : 0 ≤ normSq a := by
  unfold normSq dot
  induction a with
  | nil => simp
  | cons x xs ih =>
    simp only [List.zipWith_cons_cons, List.sum_cons]
    exact add_nonneg (mul_self_nonneg x) ih

/-- On equal-length inputs the `SimVal` returned by `calculate_similarity`
denotes exactly the cosine formula `dot / (norm a * norm b)`. -/
theorem calculate_similarity_sound (a b : List ℚ) (h : a.length = b.length) :
    ((calculate_similarity a b).num : ℝ) / Real.sqrt (((calculate_similarity a b).radSq : ℚ) : ℝ)
      = (dot a b : ℝ) / (Real.sqrt ((normSq a : ℚ) : ℝ) * Real.sqrt ((normSq b : ℚ) : ℝ)) := by
  simp only [calculate_similarity, if_pos h]
  rw [show (((normSq a * normSq b : ℚ)) : ℝ) = ((normSq a : ℚ) : ℝ) * ((normSq b : ℚ) : ℝ) by
    push_cast; ring]
  rw [Real.sqrt_mul (by exact_mod_cast normSq_nonneg a)]

/-! ## Structural facts about the mutating operations -/

theorem alInsert_alInsert {α : Type} (l : List (String × α)) (k : String) (v w : α) :
    alInsert (alInsert l k v) k w = alInsert l k w := by
  induction l with
  | nil => simp [alInsert]
  | cons p rest ih =>
    by_cases hp : p.1 = k
    · simp [alInsert, hp]
    · simp [alInsert, hp, ih]

theorem mem_alInsert {α : Type} (l : List (String × α)) (k : String) (v : α)
    (p : String × α) (h : p ∈ alInsert l k v) : p = (k, v) ∨ p ∈ l := by
  induction l with
  | nil => simpa [alInsert] using h
  | cons a rest ih =>
    by_cases ha : a.1 = k
    · rcases List.mem_cons.1 (by simpa [alInsert, ha] using h) with rfl | hmem
      · exact Or.inl rfl
      · exact Or.inr (List.mem_cons_of_mem _ hmem)
    · rcases List.mem_cons.1 (by simpa [alInsert, ha] using h) with rfl | hmem
      · exact Or.inr (List.mem_cons_self _ _)
      · rcases ih hmem with h' | h'
        · exact Or.inl h'
        · exact Or.inr (List.mem_cons_of_mem _ h')

theorem mem_of_mem_alErase {α : Type} (l : List (String × α)) (k : String)
    (p : String × α) (h : p ∈ alErase l k) : p ∈ l := by
  induction l with
  | nil => simp [alErase] at h
  | cons a rest ih =>
    by_cases ha : a.1 = k
    · exact List.mem_cons_of_mem _ (by simpa [alErase, ha] using h)
    · rcases List.mem_cons.1 (by simpa [alErase, ha] using h) with rfl | hmem
      · exact List.mem_cons_self _ _
      · exact List.mem_cons_of_mem _ (ih hmem)

/-- Every path through `add_to_semantic_cache` leaves the contexts alone and
either leaves the two cache maps alone, rewrites both at `sid`, or — on the
caught mid-eviction `KeyError` path — rewrites only `session_caches` at a
`sid` that is present in `session_embeddings`. -/
theorem add_shape (embed : String → Option (List ℚ)) (m : Manager) (q r sid now : String) :
    (add_to_semantic_cache embed m q r sid now).session_contexts = m.session_contexts ∧
    (((add_to_semantic_cache embed m q r sid now).session_caches = m.session_caches ∧
        (add_to_semantic_cache embed m q r sid now).session_embeddings = m.session_embeddings) ∨
      (∃ X Y, (add_to_semantic_cache embed m q r sid now).session_caches =
            alInsert m.session_caches sid X ∧
          (add_to_semantic_cache embed m q r sid now).session_embeddings =
            alInsert m.session_embeddings sid Y) ∨
      (∃ X, (add_to_semantic_cache embed m q r sid now).session_caches =
            alInsert m.session_caches sid X ∧
          (add_to_semantic_cache embed m q r sid now).session_embeddings =
            m.session_embeddings ∧
          (alGet m.session_embeddings sid).isSome = true)) := by
  by_cases hsid : sid = ""
  · simp [add_to_semantic_cache, hsid]
  · cases hc : alGet m.session_caches sid with
    | none =>
      cases he : embed q with
      | none =>
        simp only [add_to_semantic_cache, addBody, addStore, if_neg hsid, hc, he,
          List.length_nil]
        rw [if_neg (by simp [max_session_cache_size])]
        exact ⟨by simp, Or.inr (Or.inl ⟨[], [], by simp, by simp⟩)⟩
      | some qe =>
        simp only [add_to_semantic_cache, addBody, addStore, if_neg hsid, hc, he,
          List.length_nil]
        rw [if_neg (by simp [max_session_cache_size])]
        refine ⟨by simp, Or.inr (Or.inl ⟨alInsert [] q { response := r, timestamp := now },
          alInsert [] q qe, ?_, ?_⟩)⟩
        · simp [alInsert_alInsert]
        · simp [alInsert_alInsert]
    | some sc =>
      cases hse : alGet m.session_embeddings sid with
      | none =>
        simp only [add_to_semantic_cache, if_neg hsid, hc, hse]
        exact ⟨by simp, Or.inl ⟨by simp, by simp⟩⟩
      | some se =>
        by_cases hcap : max_session_cache_size ≤ sc.length
        · cases sc with
          | nil => simp [max_session_cache_size] at hcap
          | cons hd tl =>
            obtain ⟨ok, cd0⟩ := hd
            cases hok : alGet se ok with
            | none =>
              simp only [add_to_semantic_cache, addBody, addStore, if_neg hsid, hc, hse,
                if_pos hcap, hok]
              exact ⟨by simp, Or.inr (Or.inr ⟨alErase ((ok, cd0) :: tl) ok, by simp,
                by simp, by simp [hse]⟩)⟩
            | some emb =>
              cases he : embed q with
              | none =>
                simp only [add_to_semantic_cache, addBody, addStore, if_neg hsid, hc, hse,
                  if_pos hcap, hok, he]
                exact ⟨by simp, Or.inr (Or.inl ⟨alErase ((ok, cd0) :: tl) ok,
                  alErase se ok, by simp, by simp⟩)⟩
              | some qe =>
                simp only [add_to_semantic_cache, addBody, addStore, if_neg hsid, hc, hse,
                  if_pos hcap, hok, he]
                refine ⟨by simp, Or.inr (Or.inl ⟨alInsert (alErase ((ok, cd0) :: tl) ok) q
                    { response := r, timestamp := now },
                  alInsert (alErase se ok) q qe, ?_, ?_⟩)⟩
                · simp [alInsert_alInsert]
                · simp [alInsert_alInsert]
        · cases he : embed q with
          | none =>
            simp only [add_to_semantic_cache, addBody, addStore, if_neg hsid, hc, hse,
              if_neg hcap, he]
            exact ⟨by simp, Or.inl ⟨by simp, by simp⟩⟩
          | some qe =>
            simp only [add_to_semantic_cache, addBody, addStore, if_neg hsid, hc, hse,
              if_neg hcap, he]
            exact ⟨by simp, Or.inr (Or.inl ⟨alInsert sc q { response := r, timestamp := now },
              alInsert se q qe, by simp, by simp⟩)⟩

/-! ## State invariants and reachability -/

theorem goodState_init : GoodState initManager := by
  refine ⟨?_, ?_, ?_, ?_⟩ <;> simp [initManager, NodupKeys, Paired]

theorem paired_alInsert_both (m : Manager) (sid : String)
    (X : List (String × CacheData)) (Y : List (String × List ℚ))
    (h : Paired m) :
    Paired { session_caches := alInsert m.session_caches sid X,
             session_embeddings := alInsert m.session_embeddings sid Y,
             session_contexts := m.session_contexts } := by
  intro p hp
  rcases mem_alInsert _ _ _ _ hp with rfl | hmem
  · simp [alGet_alInsert_self]
  · by_cases hps : p.1 = sid
    · simp [hps, alGet_alInsert_self]
    · simpa [alGet_alInsert_ne _ _ _ _ hps] using h p hmem

theorem goodState_add (embed : String → Option (List ℚ)) (m : Manager)
    (q r sid now : String) (h : GoodState m) :
    GoodState (add_to_semantic_cache embed m q r sid now) := by
  obtain ⟨h1, h2, h3, h4⟩ := h
  obtain ⟨hctx, hmaps⟩ := add_shape embed m q r sid now
  rcases hmaps with ⟨hceq, heeq⟩ | ⟨X, Y, hceq, heeq⟩ | ⟨X, hceq, heeq, hsome⟩
  · exact ⟨hceq ▸ h1, heeq ▸ h2, hctx ▸ h3, fun p hp => by
      rw [heeq]
      exact h4 p (hceq ▸ hp)⟩
  · refine ⟨hceq ▸ nodupKeys_alInsert _ _ _ h1, heeq ▸ nodupKeys_alInsert _ _ _ h2,
      hctx ▸ h3, ?_⟩
    have := paired_alInsert_both m sid X Y h4
    intro p hp
    rw [heeq]
    exact this p (by simpa [hceq] using hp)
  · refine ⟨hceq ▸ nodupKeys_alInsert _ _ _ h1, heeq ▸ h2, hctx ▸ h3, ?_⟩
    intro p hp
    rw [heeq]
    rcases mem_alInsert _ _ _ _ (hceq ▸ hp) with rfl | hmem
    · exact hsome
    · exact h4 p hmem

theorem goodState_add_ctx (m : Manager) (sid q r now : String) (h : GoodState m) :
    GoodState (add_to_context m sid q r now) := by
  obtain ⟨h1, h2, h3, h4⟩ := h
  unfold add_to_context
  by_cases hsid : sid = ""
  · simpa [hsid] using ⟨h1, h2, h3, h4⟩
  · simp only [if_neg hsid]
    exact ⟨h1, h2, nodupKeys_alInsert _ _ _ h3, h4⟩

theorem goodState_clear (m : Manager) (sid : String) (h : GoodState m) :
    GoodState (clear_session_cache m sid) := by
  obtain ⟨h1, h2, h3, h4⟩ := h
  refine ⟨nodupKeys_alErase _ _ h1, nodupKeys_alErase _ _ h2, nodupKeys_alErase _ _ h3, ?_⟩
  intro p hp
  unfold clear_session_cache at hp ⊢
  simp only [] at hp ⊢
  have hpm : p ∈ m.session_caches := mem_of_mem_alErase _ _ _ hp
  have hpne : p.1 ≠ sid := by
    intro hpeq
    have hkeys : p.1 ∈ (alErase m.session_caches sid).map Prod.fst :=
      List.mem_map.2 ⟨p, hp, rfl⟩
    have : (alGet (alErase m.session_caches sid) p.1).isSome = true :=
      (alGet_isSome_iff_mem_keys _ _).2 hkeys
    rw [hpeq, alGet_alErase_self _ _ h1] at this
    simp at this
  rw [alGet_alErase_ne _ _ _ hpne]
  exact h4 p hpm

theorem goodState_clear_all (m : Manager) (_ : GoodState m) :
    GoodState (clear_all_caches m) := goodState_init

theorem reachable_goodState (m : Manager) (h : Reachable m) : GoodState m := by
  induction h with
  | init => exact goodState_init
  | add_cache embed m q r sid now _ ih => exact goodState_add embed m q r sid now ih
  | add_ctx m sid q r now _ ih => exact goodState_add_ctx m sid q r now ih
  | clear m sid _ ih => exact goodState_clear m sid ih
  | clear_all m _ ih => exact goodState_clear_all m ih

/-! ## Further supporting lemmas for the claims -/

theorem tail_append_of_left_ne_nil {α : Type} (l l' : List α) (h : l ≠ []) :
    (l ++ l').tail = l.tail ++ l' := by
  cases l with
  | nil => exact absurd rfl h
  | cons a t => rfl

theorem alGet_isSome_of_alErase {α : Type} (l : List (String × α)) (k0 k : String)
    (h : (alGet (alErase l k0) k).isSome = true) : (alGet l k).isSome = true := by
  induction l with
  | nil => simpa [alErase] using h
  | cons p rest ih =>
    by_cases hp : p.1 = k0
    · rw [show alErase (p :: rest) k0 = rest from by simp [alErase, hp]] at h
      by_cases hk : p.1 = k
      · simp [alGet, hk]
      · simpa [alGet, hk] using h
    · rw [show alErase (p :: rest) k0 = p :: alErase rest k0 from by simp [alErase, hp]] at h
      by_cases hk : p.1 = k
      · simp [alGet, hk]
      · simp only [alGet, if_neg hk] at h ⊢
        exact ih h

/-! ## Claim theorems -/

/-- C4: for every session and every sequence of `add_to_context` calls the
turn count never exceeds 10 (stated as preservation of the per-session bound,
which holds in the initial state); and when an append would exceed the bound,
exactly the single oldest turn is removed, keeping the remaining turns in
oldest-first order. -/
theorem claim4 (m : Manager) (sid q r now : String)
    (hbound : ∀ p ∈ m.session_contexts, p.2.length ≤ max_context_length) :
    (∀ p ∈ (add_to_context m sid q r now).session_contexts,
        p.2.length ≤ max_context_length) ∧
    (∀ ctx, sid ≠ "" → alGet m.session_contexts sid = some ctx →
      ctx.length = max_context_length →
      alGet (add_to_context m sid q r now).session_contexts sid =
        some (ctx.tail ++ [{ query := q, response := r, timestamp := now }])) := by
  by_cases hsid : sid = ""
  · refine ⟨?_, ?_⟩
    · simpa [add_to_context, hsid] using hbound
    · intro ctx hne _ _
      exact absurd hsid hne
  · have hctx0 : ((alGet m.session_contexts sid).getD []).length ≤ max_context_length := by
      cases hg : alGet m.session_contexts sid with
      | none => simp
      | some c =>
        simpa using hbound (sid, c) (alGet_eq_some_mem _ _ _ hg)
    constructor
    · intro p hp
      simp only [add_to_context, if_neg hsid] at hp
      rcases mem_alInsert _ _ _ _ hp with rfl | hmem
      · simp only []
        split
        · rename_i hlong
          simp only [List.length_tail, List.length_append, List.length_singleton]
          omega
        · rename_i hshort
          simp only [List.length_append, List.length_singleton] at hshort ⊢
          omega
      · exact hbound p hmem
    · intro ctx _ hget hlen
      simp only [add_to_context, if_neg hsid, hget, Option.getD_some]
      rw [if_pos (by simp [hlen, max_context_length]), alGet_alInsert_self,
        tail_append_of_left_ne_nil _ _ (by intro hnil; rw [hnil] at hlen; simp [max_context_length] at hlen)]

def ctx10 : List ContextTurn := List.replicate 10 { query := "q0", response := "r0", timestamp := "t0" }

def mCtx10 : Manager :=
  { session_caches := [], session_embeddings := [], session_contexts := [("s", ctx10)] }

theorem claim4_witness :
    alGet (add_to_context mCtx10 "s" "q" "r" "t").session_contexts "s" =
      some (ctx10.tail ++ [{ query := "q", response := "r", timestamp := "t" }]) :=
  (claim4 mCtx10 "s" "q" "r" "t" (by decide)).2 ctx10 (by decide) rfl (by decide)

/-- C5: `get_context_for_query` returns the current query unchanged when the
session has no stored turns; otherwise it returns the newline-join of the
rendering of the last 3 stored turns (fewer if fewer exist) — for each, a
line containing the turn's query and a line containing the first 100
characters of its response — followed by a final line containing the current
query; turns older than the last 3 are not rendered. -/
theorem claim5 (m : Manager) (sid cq : String) :
    ((alGet m.session_contexts sid = none ∨ alGet m.session_contexts sid = some []) →
      get_context_for_query m sid cq = cq) ∧
    (∀ ctx, sid ≠ "" → alGet m.session_contexts sid = some ctx → ctx ≠ [] →
      get_context_for_query m sid cq =
        String.intercalate "\n"
          (((ctx.drop (ctx.length - 3)).map renderTurn).flatten ++ ["当前问题: " ++ cq])) := by
  constructor
  · intro h
    by_cases hsid : sid = ""
    · simp [get_context_for_query, hsid]
    · rcases h with h | h <;> simp [get_context_for_query, hsid, h]
  · intro ctx hsid hget hne
    simp only [get_context_for_query, if_neg hsid, hget]
    rw [if_neg hne]
    by_cases hlong : 3 < ctx.length
    · simp [hlong]
    · rw [if_neg hlong, Nat.sub_eq_zero_of_le (not_lt.1 hlong), List.drop_zero]

def ctxW : List ContextTurn :=
  [{ query := "q1", response := "r1", timestamp := "t1" },
   { query := "q2", response := "r2", timestamp := "t2" },
   { query := "q3", response := "r3", timestamp := "t3" },
   { query := "q4", response := "r4", timestamp := "t4" }]

def mCtx4 : Manager :=
  { session_caches := [], session_embeddings := [], session_contexts := [("s", ctxW)] }

theorem claim5_witness :
    get_context_for_query mCtx4 "s" "q5" =
      String.intercalate "\n"
        (((ctxW.drop (ctxW.length - 3)).map renderTurn).flatten ++ ["当前问题: " ++ "q5"]) :=
  (claim5 mCtx4 "s" "q5").2 ctxW (by decide) rfl (by decide)

/-- C6: the claim states that `_calculate_similarity` returns exactly `0`
when either norm is zero.  This is the documented intent (the `except`
branch returns `0.0`), but numpy float division by zero warns instead of
raising, so the code actually produces the `nan` value `0.0 / 0.0`
(`radSq = 0` in this encoding), not `0`: the model evaluates to the `nan`
representative at the failing input `a = [0], b = [1]`, while on nonzero
norms it returns the `dot/(norm*norm)` value as claimed. -/
theorem claim6_eval :
    calculate_similarity [0] [1] = { num := 0, radSq := 0 } ∧
    ¬ simGe (calculate_similarity [0] [1]) 0 ∧
    simGe simZero 0 ∧
    calculate_similarity [1, 1] [1, 0] = { num := 1, radSq := 2 } :=
  ⟨by with_unfolding_all rfl,
   of_decide_eq_false (by with_unfolding_all rfl),
   of_decide_eq_true (by with_unfolding_all rfl),
   by with_unfolding_all rfl⟩

/-- C10: when the scan's selected best response is the empty string, the
`if best_response:` truthiness test makes the lookup return `none` rather
than the cached empty answer. -/
theorem claim10 (embed : String → Option (List ℚ)) (m : Manager) (q sid : String)
    (sc : List (String × CacheData)) (se : List (String × List ℚ)) (qe : List ℚ)
    (hsid : sid ≠ "") (hc : alGet m.session_caches sid = some sc)
    (hse : alGet m.session_embeddings sid = some se) (he : embed q = some qe)
    (hscan : (cacheScan qe se sc simZero none).2 = some "") :
    check_semantic_cache embed m q sid = .ok none := by
  by_cases hnil : sc = []
  · rw [hnil] at hscan
    simp [cacheScan] at hscan
  · simp only [check_semantic_cache, if_neg hsid, hc, hse, if_neg hnil, he, hscan]
    simp

def scEmpty : List (String × CacheData) := [("q1", { response := "", timestamp := "t" })]

def seOne : List (String × List ℚ) := [("q1", [1, 0])]

def mEmptyResp : Manager :=
  { session_caches := [("s", scEmpty)], session_embeddings := [("s", seOne)],
    session_contexts := [] }

theorem claim10_witness :
    check_semantic_cache (fun _ => some [1, 0]) mEmptyResp "q2" "s" = .ok none :=
  claim10 (fun _ => some [1, 0]) mEmptyResp "q2" "s" scEmpty seOne [1, 0]
    (by decide) rfl rfl rfl (by with_unfolding_all rfl)

/-- C1 as frozen is false on the code: when the best-matching entry's stored
response is the empty string, the lookup returns `none` instead of that
stored response.  Here the single entry of session `s` has similarity `1`
(`simGe ... cache_threshold` holds), so it is the maximal entry clearing the
threshold and the claim demands its stored response `""` be returned; the
code returns `none`. -/
theorem claim1_cex :
    specBest (simsOf [1, 0] seOne scEmpty) =
      some (calculate_similarity [1, 0] [1, 0], "") ∧
    simGe (calculate_similarity [1, 0] [1, 0]) cache_threshold ∧
    check_semantic_cache (fun _ => some [1, 0]) mEmptyResp "q2" "s" = .ok none :=
  ⟨by with_unfolding_all rfl,
   of_decide_eq_true (by with_unfolding_all rfl),
   by with_unfolding_all rfl⟩

/-- C1 (amended): for a session with stored entries and a successfully
embedded query, `check_semantic_cache` returns the stored response of the
first-scanned entry whose cosine similarity is maximal among the session's
entries and ≥ 0.75 (a later entry displaces an earlier candidate only with a
strictly higher similarity; exact ties keep the first scanned) — provided
that response is non-empty; it returns `none` when no entry clears the
threshold, when the session has no entries, or when the selected stored
response is the empty string. -/
theorem claim1_amended (embed : String → Option (List ℚ)) (m : Manager) (q sid : String)
    (sc : List (String × CacheData)) (se : List (String × List ℚ)) (qe : List ℚ)
    (hsid : sid ≠ "") (hc : alGet m.session_caches sid = some sc)
    (hse : alGet m.session_embeddings sid = some se) (he : embed q = some qe) :
    check_semantic_cache embed m q sid = .ok
      (match specBest (simsOf qe se sc) with
       | some p => if p.2 = "" then none else some p.2
       | none => none) := by
  by_cases hnil : sc = []
  · rw [hnil]
    simp only [check_semantic_cache, if_neg hsid, hc, hse, hnil, if_pos rfl]
    simp [simsOf, specBest]
  · simp only [check_semantic_cache, if_neg hsid, hc, hse, if_neg hnil, he]
    rw [cacheScan_eq_scanFold, scanFold_eq_find, ← specBest_eq_find]
    cases hb : specBest (simsOf qe se sc) with
    | none => simp
    | some p =>
      by_cases hp : p.2 = "" <;> simp [hp]

def scHello : List (String × CacheData) := [("q1", { response := "hello", timestamp := "t" })]

def mHello : Manager :=
  { session_caches := [("s", scHello)], session_embeddings := [("s", seOne)],
    session_contexts := [] }

theorem claim1_witness :
    check_semantic_cache (fun _ => some [1, 0]) mHello "q2" "s" = .ok
      (match specBest (simsOf [1, 0] seOne scHello) with
       | some p => if p.2 = "" then none else some p.2
       | none => none) :=
  claim1_amended (fun _ => some [1, 0]) mHello "q2" "s" scHello seOne [1, 0]
    (by decide) rfl rfl rfl

/-- Every path through `add_to_semantic_cache` either leaves `session_caches`
unchanged or rewrites the `sid` entry with a list no longer than the larger
of the cap and the entry's previous length. -/
theorem add_caches_len (embed : String → Option (List ℚ)) (m : Manager) (q r sid now : String) :
    (add_to_semantic_cache embed m q r sid now).session_caches = m.session_caches ∨
    ∃ X, (add_to_semantic_cache embed m q r sid now).session_caches =
        alInsert m.session_caches sid X ∧
      X.length ≤ max max_session_cache_size ((alGet m.session_caches sid).getD []).length := by
  by_cases hsid : sid = ""
  · simp [add_to_semantic_cache, hsid]
  · cases hc : alGet m.session_caches sid with
    | none =>
      cases he : embed q with
      | none =>
        simp only [add_to_semantic_cache, addBody, addStore, if_neg hsid, hc, he,
          List.length_nil]
        rw [if_neg (by simp [max_session_cache_size])]
        exact Or.inr ⟨[], rfl, by simp⟩
      | some qe =>
        simp only [add_to_semantic_cache, addBody, addStore, if_neg hsid, hc, he,
          List.length_nil]
        rw [if_neg (by simp [max_session_cache_size])]
        refine Or.inr ⟨alInsert [] q { response := r, timestamp := now }, ?_, ?_⟩
        · simp [alInsert_alInsert]
        · simp [alInsert, max_session_cache_size]
    | some sc =>
      cases hse : alGet m.session_embeddings sid with
      | none =>
        simp only [add_to_semantic_cache, if_neg hsid, hc, hse]
        exact Or.inl (by simp)
      | some se =>
        by_cases hcap : max_session_cache_size ≤ sc.length
        · cases sc with
          | nil => simp [max_session_cache_size] at hcap
          | cons hd tl =>
            obtain ⟨ok, cd0⟩ := hd
            have herase : alErase ((ok, cd0) :: tl) ok = tl := by simp [alErase]
            cases hok : alGet se ok with
            | none =>
              simp only [add_to_semantic_cache, addBody, addStore, if_neg hsid, hc, hse,
                if_pos hcap, hok]
              refine Or.inr ⟨alErase ((ok, cd0) :: tl) ok, rfl, ?_⟩
              rw [herase]
              simp only [Option.getD_some, List.length_cons]
              omega
            | some emb =>
              cases he : embed q with
              | none =>
                simp only [add_to_semantic_cache, addBody, addStore, if_neg hsid, hc, hse,
                  if_pos hcap, hok, he]
                refine Or.inr ⟨alErase ((ok, cd0) :: tl) ok, rfl, ?_⟩
                rw [herase]
                simp only [Option.getD_some, List.length_cons]
                omega
              | some qe =>
                simp only [add_to_semantic_cache, addBody, addStore, if_neg hsid, hc, hse,
                  if_pos hcap, hok, he]
                refine Or.inr ⟨alInsert (alErase ((ok, cd0) :: tl) ok) q
                    { response := r, timestamp := now }, by simp [alInsert_alInsert], ?_⟩
                rw [herase]
                have hle := length_alInsert_le tl q { response := r, timestamp := now }
                simp only [Option.getD_some, List.length_cons]
                omega
        · cases he : embed q with
          | none =>
            simp only [add_to_semantic_cache, addBody, addStore, if_neg hsid, hc, hse,
              if_neg hcap, he]
            exact Or.inl (by simp)
          | some qe =>
            simp only [add_to_semantic_cache, addBody, addStore, if_neg hsid, hc, hse,
              if_neg hcap, he]
            refine Or.inr ⟨alInsert sc q { response := r, timestamp := now }, rfl, ?_⟩
            have hle := length_alInsert_le sc q { response := r, timestamp := now }
            simp only [Option.getD_some, max_session_cache_size] at hcap ⊢
            omega

/-- C2: for every session the cache entry count never exceeds 50 (stated as
preservation of the per-session bound, which holds in the initial state);
and when a new query is inserted while the session holds exactly 50 entries,
the single oldest-inserted entry (the head of the insertion-ordered dict) is
evicted and the new entry is appended at the end. -/
theorem claim2 (embed : String → Option (List ℚ)) (m : Manager) (q r sid now : String)
    (hbound : ∀ p ∈ m.session_caches, p.2.length ≤ max_session_cache_size) :
    (∀ p ∈ (add_to_semantic_cache embed m q r sid now).session_caches,
        p.2.length ≤ max_session_cache_size) ∧
    (∀ sc se ok cd0 tl qe, sid ≠ "" →
      alGet m.session_caches sid = some sc →
      alGet m.session_embeddings sid = some se →
      sc = (ok, cd0) :: tl →
      (alGet se ok).isSome = true →
      sc.length = max_session_cache_size →
      alGet sc q = none →
      embed q = some qe →
      alGet (add_to_semantic_cache embed m q r sid now).session_caches sid =
        some (tl ++ [(q, { response := r, timestamp := now })])) := by
  constructor
  · rcases add_caches_len embed m q r sid now with heq | ⟨X, heq, hlen⟩
    · rw [heq]
      exact hbound
    · rw [heq]
      intro p hp
      rcases mem_alInsert _ _ _ _ hp with rfl | hmem
      · simp only []
        have hgd : ((alGet m.session_caches sid).getD []).length ≤ max_session_cache_size := by
          cases hg : alGet m.session_caches sid with
          | none => simp
          | some c => simpa using hbound (sid, c) (alGet_eq_some_mem _ _ _ hg)
        omega
      · exact hbound p hmem
  · intro sc se ok cd0 tl qe hsid hc hse hsc hok hlen hnew he
    subst hsc
    have hcap : max_session_cache_size ≤ ((ok, cd0) :: tl).length := le_of_eq hlen.symm
    obtain ⟨emb, hok'⟩ := Option.isSome_iff_exists.1 hok
    have herase : alErase ((ok, cd0) :: tl) ok = tl := by simp [alErase]
    have hokq : ok ≠ q := by
      intro hoq
      rw [show alGet ((ok, cd0) :: tl) q = some cd0 from by simp [alGet, hoq]] at hnew
      exact Option.noConfusion hnew
    have htlq : alGet tl q = none := by
      rw [show alGet ((ok, cd0) :: tl) q = alGet tl q from by simp [alGet, hokq]] at hnew
      exact hnew
    simp only [add_to_semantic_cache, addBody, addStore, if_neg hsid, hc, hse,
      if_pos hcap, hok', he]
    rw [herase, alInsert_alInsert, alGet_alInsert_self,
      alInsert_of_alGet_none _ _ _ htlq]

def scBig : List (String × CacheData) :=
  (List.range 50).map (fun i => (toString i, { response := "r", timestamp := "t" }))

def seBig : List (String × List ℚ) := (List.range 50).map (fun i => (toString i, [1]))

def mBig : Manager :=
  { session_caches := [("s", scBig)], session_embeddings := [("s", seBig)],
    session_contexts := [] }

theorem claim2_witness :
    alGet (add_to_semantic_cache (fun _ => some [1]) mBig "newq" "resp" "s" "now").session_caches
        "s" =
      some (scBig.tail ++ [("newq", { response := "resp", timestamp := "now" })]) :=
  (claim2 (fun _ => some [1]) mBig "newq" "resp" "s" "now" (by decide)).2 scBig seBig "0"
    { response := "r", timestamp := "t" } scBig.tail [1] (by decide)
    rfl rfl (by with_unfolding_all rfl) (by with_unfolding_all rfl)
    (by with_unfolding_all rfl) (by with_unfolding_all rfl) rfl

/-- C3 as frozen is false on the code: on an embedding failure
`add_to_semantic_cache` is not a no-op.  The capacity eviction (lines 97–102)
runs *before* the embedding is computed (line 105), so when the session is at
the 50-entry cap the oldest entry is evicted and then nothing is inserted:
from a 50-entry session, an insert whose embedding computation fails leaves
49 entries. -/
theorem claim3_cex :
    ((alGet mBig.session_caches "s").getD []).length = 50 ∧
    ((alGet (add_to_semantic_cache (fun _ => none) mBig "q" "r" "s" "t").session_caches
        "s").getD []).length = 49 := by
  constructor
  · with_unfolding_all rfl
  · with_unfolding_all rfl

/-- C3 (amended): if the embedding computation fails, `check_semantic_cache`
returns `none` and the failure never propagates; `add_to_semantic_cache`
inserts nothing — no cache entry and no embedding appears that was not
already present, so no partial entry is ever created — but it is not a
complete no-op: when the session already holds at least 50 entries the
oldest-inserted entry is still evicted (and a previously absent session
gains an empty cache record). -/
theorem claim3_amended (embed : String → Option (List ℚ)) (m : Manager) (q r sid now : String)
    (hembed : embed q = none)
    (hpair : ∀ p ∈ m.session_caches, (alGet m.session_embeddings p.1).isSome = true) :
    check_semantic_cache embed m q sid = .ok none ∧
    (∀ s k, (alGet ((alGet (add_to_semantic_cache embed m q r sid now).session_caches
          s).getD []) k).isSome = true →
      (alGet ((alGet m.session_caches s).getD []) k).isSome = true) ∧
    (∀ s k, (alGet ((alGet (add_to_semantic_cache embed m q r sid now).session_embeddings
          s).getD []) k).isSome = true →
      (alGet ((alGet m.session_embeddings s).getD []) k).isSome = true) ∧
    (∀ sc ok cd0 tl, sid ≠ "" → alGet m.session_caches sid = some sc →
      sc = (ok, cd0) :: tl → max_session_cache_size ≤ sc.length →
      alGet (add_to_semantic_cache embed m q r sid now).session_caches sid = some tl) := by
  refine ⟨?_, ?_, ?_, ?_⟩
  · by_cases hsid : sid = ""
    · simp [check_semantic_cache, hsid]
    · cases hc : alGet m.session_caches sid with
      | none => simp [check_semantic_cache, hsid, hc]
      | some sc =>
        obtain ⟨se, hse⟩ := Option.isSome_iff_exists.1
          (hpair (sid, sc) (alGet_eq_some_mem _ _ _ hc))
        by_cases hnil : sc = []
        · simp [check_semantic_cache, hsid, hc, hse, hnil]
        · simp [check_semantic_cache, hsid, hc, hse, hnil, hembed]
  · intro s k hk
    by_cases hsid : sid = ""
    · simpa [add_to_semantic_cache, hsid] using hk
    · cases hc : alGet m.session_caches sid with
      | none =>
        rw [show (add_to_semantic_cache embed m q r sid now).session_caches =
            alInsert m.session_caches sid [] from by
          simp only [add_to_semantic_cache, addBody, addStore, if_neg hsid, hc, hembed,
            List.length_nil]
          rw [if_neg (by simp [max_session_cache_size])]] at hk
        by_cases hs : s = sid
        · rw [hs, alGet_alInsert_self] at hk
          simp [alGet] at hk
        · rwa [alGet_alInsert_ne _ _ _ _ hs] at hk
      | some sc =>
        cases hse : alGet m.session_embeddings sid with
        | none =>
          rw [show (add_to_semantic_cache embed m q r sid now).session_caches =
              m.session_caches from by
            simp [add_to_semantic_cache, hsid, hc, hse]] at hk
          exact hk
        | some se =>
          by_cases hcap : max_session_cache_size ≤ sc.length
          · cases sc with
            | nil => simp [max_session_cache_size] at hcap
            | cons hd tl =>
              obtain ⟨ok, cd0⟩ := hd
              have hcap2 : max_session_cache_size ≤ tl.length + 1 := by simpa using hcap
              have hres : (add_to_semantic_cache embed m q r sid now).session_caches =
                  alInsert m.session_caches sid (alErase ((ok, cd0) :: tl) ok) := by
                cases hok : alGet se ok with
                | none =>
                  simp [add_to_semantic_cache, addBody, addStore, hsid, hc, hse,
                    hcap2, hok]
                | some emb =>
                  simp [add_to_semantic_cache, addBody, addStore, hsid, hc, hse,
                    hcap2, hok, hembed]
              rw [hres] at hk
              by_cases hs : s = sid
              · rw [hs, alGet_alInsert_self] at hk
                rw [hs, hc]
                simp only [Option.getD_some] at hk ⊢
                exact alGet_isSome_of_alErase _ _ _ hk
              · rwa [alGet_alInsert_ne _ _ _ _ hs] at hk
          · rw [show (add_to_semantic_cache embed m q r sid now).session_caches =
                m.session_caches from by
              simp [add_to_semantic_cache, addBody, addStore, hsid, hc, hse, hcap, hembed]] at hk
            exact hk
  · intro s k hk
    by_cases hsid : sid = ""
    · simpa [add_to_semantic_cache, hsid] using hk
    · cases hc : alGet m.session_caches sid with
      | none =>
        rw [show (add_to_semantic_cache embed m q r sid now).session_embeddings =
            alInsert m.session_embeddings sid [] from by
          simp only [add_to_semantic_cache, addBody, addStore, if_neg hsid, hc, hembed,
            List.length_nil]
          rw [if_neg (by simp [max_session_cache_size])]] at hk
        by_cases hs : s = sid
        · rw [hs, alGet_alInsert_self] at hk
          simp [alGet] at hk
        · rwa [alGet_alInsert_ne _ _ _ _ hs] at hk
      | some sc =>
        cases hse : alGet m.session_embeddings sid with
        | none =>
          rw [show (add_to_semantic_cache embed m q r sid now).session_embeddings =
              m.session_embeddings from by
            simp [add_to_semantic_cache, hsid, hc, hse]] at hk
          exact hk
        | some se =>
          by_cases hcap : max_session_cache_size ≤ sc.length
          · cases sc with
            | nil => simp [max_session_cache_size] at hcap
            | cons hd tl =>
              obtain ⟨ok, cd0⟩ := hd
              have hcap2 : max_session_cache_size ≤ tl.length + 1 := by simpa using hcap
              cases hok : alGet se ok with
              | none =>
                rw [show (add_to_semantic_cache embed m q r sid now).session_embeddings =
                    m.session_embeddings from by
                  simp [add_to_semantic_cache, addBody, addStore, hsid, hc, hse,
                    hcap2, hok]] at hk
                exact hk
              | some emb =>
                rw [show (add_to_semantic_cache embed m q r sid now).session_embeddings =
                    alInsert m.session_embeddings sid (alErase se ok) from by
                  simp [add_to_semantic_cache, addBody, addStore, hsid, hc, hse,
                    hcap2, hok, hembed]] at hk
                by_cases hs : s = sid
                · rw [hs, alGet_alInsert_self] at hk
                  rw [hs, hse]
                  simp only [Option.getD_some] at hk ⊢
                  exact alGet_isSome_of_alErase _ _ _ hk
                · rwa [alGet_alInsert_ne _ _ _ _ hs] at hk
          · rw [show (add_to_semantic_cache embed m q r sid now).session_embeddings =
                m.session_embeddings from by
              simp [add_to_semantic_cache, addBody, addStore, hsid, hc, hse, hcap, hembed]] at hk
            exact hk
  · intro sc ok cd0 tl hsid hc hsc hcap
    subst hsc
    have herase : alErase ((ok, cd0) :: tl) ok = tl := by simp [alErase]
    obtain ⟨se, hse⟩ := Option.isSome_iff_exists.1
      (hpair (sid, (ok, cd0) :: tl) (alGet_eq_some_mem _ _ _ hc))
    cases hok : alGet se ok with
    | none =>
      simp only [add_to_semantic_cache, addBody, addStore, if_neg hsid, hc, hse,
        if_pos hcap, hok]
      rw [herase, alGet_alInsert_self]
    | some emb =>
      simp only [add_to_semantic_cache, addBody, addStore, if_neg hsid, hc, hse,
        if_pos hcap, hok, hembed]
      rw [herase, alGet_alInsert_self]

theorem claim3_witness :
    check_semantic_cache (fun _ => none) mBig "q" "s" = .ok none ∧
    alGet (add_to_semantic_cache (fun _ => none) mBig "q" "r" "s" "t").session_caches "s" =
      some scBig.tail := by
  have h := claim3_amended (fun _ => none) mBig "q" "r" "s" "t" rfl (by
    intro p hp
    fin_cases hp
    with_unfolding_all rfl)
  exact ⟨h.1, h.2.2.2 scBig "0" { response := "r", timestamp := "t" } scBig.tail
    (by decide) rfl (by with_unfolding_all rfl) (by with_unfolding_all rfl)⟩

/-- C8 as frozen is false on the code: `total_sessions` is
`len(self.session_caches)`, which does not count a session that holds only
context turns.  After a single `add_to_context` into a fresh manager, the
session holds one turn (it "holds state"), yet `get_session_stats` reports
`total_sessions = 0`. -/
theorem claim8_cex :
    sessionsWithState (add_to_context initManager "s" "q" "r" "t") = 1 ∧
    (get_session_stats (add_to_context initManager "s" "q" "r" "t")).total_sessions = 0 := by
  constructor
  · with_unfolding_all rfl
  · with_unfolding_all rfl

/-- C8 (amended): `get_session_stats` returns `total_sessions` equal to the
number of sessions present in the semantic-cache map (which excludes
sessions holding only context turns and includes sessions left with an
empty cache record), `total_cached_queries` equal to the sum of cache entry
counts over all sessions, `total_contexts` equal to the sum of context turn
counts over all sessions, and the configured constants 0.75, 50 and 10. -/
theorem claim8_amended (m : Manager) :
    get_session_stats m =
      { total_sessions := m.session_caches.length,
        total_cached_queries := (m.session_caches.map (fun p => p.2.length)).sum,
        total_contexts := (m.session_contexts.map (fun p => p.2.length)).sum,
        cache_threshold := 3 / 4,
        max_session_cache_size := 50,
        max_context_length := 10 } := rfl

/-- C9: `clear_session_cache S` removes all of S's cache entries, embeddings
and context turns; every other session's state is untouched; afterwards any
lookup in S misses (`.ok none`); the stats drop exactly S's prior entry and
turn counts; and clearing a session absent from all three maps changes
nothing. -/
theorem claim9 (m : Manager) (sid : String)
    (h1 : NodupKeys m.session_caches) (h2 : NodupKeys m.session_embeddings)
    (h3 : NodupKeys m.session_contexts) :
    alGet (clear_session_cache m sid).session_caches sid = none ∧
    alGet (clear_session_cache m sid).session_embeddings sid = none ∧
    alGet (clear_session_cache m sid).session_contexts sid = none ∧
    (∀ s, s ≠ sid →
      alGet (clear_session_cache m sid).session_caches s = alGet m.session_caches s ∧
      alGet (clear_session_cache m sid).session_embeddings s = alGet m.session_embeddings s ∧
      alGet (clear_session_cache m sid).session_contexts s = alGet m.session_contexts s) ∧
    (∀ embed q, check_semantic_cache embed (clear_session_cache m sid) q sid = .ok none) ∧
    (∀ sc, alGet m.session_caches sid = some sc →
      (get_session_stats (clear_session_cache m sid)).total_cached_queries + sc.length =
        (get_session_stats m).total_cached_queries) ∧
    (∀ ctx, alGet m.session_contexts sid = some ctx →
      (get_session_stats (clear_session_cache m sid)).total_contexts + ctx.length =
        (get_session_stats m).total_contexts) ∧
    (alGet m.session_caches sid = none → alGet m.session_embeddings sid = none →
      alGet m.session_contexts sid = none → clear_session_cache m sid = m) := by
  refine ⟨alGet_alErase_self _ _ h1, alGet_alErase_self _ _ h2, alGet_alErase_self _ _ h3,
    ?_, ?_, ?_, ?_, ?_⟩
  · intro s hs
    exact ⟨alGet_alErase_ne _ _ _ hs, alGet_alErase_ne _ _ _ hs, alGet_alErase_ne _ _ _ hs⟩
  · intro embed q
    by_cases hsid : sid = ""
    · simp [check_semantic_cache, hsid]
    · simp [check_semantic_cache, hsid, alGet_alErase_self _ _ h1, clear_session_cache]
  · intro sc hsc
    exact sum_map_alErase m.session_caches sid sc (fun c => c.length) hsc
  · intro ctx hctx
    exact sum_map_alErase m.session_contexts sid ctx (fun c => c.length) hctx
  · intro hn1 hn2 hn3
    unfold clear_session_cache
    rw [alErase_of_alGet_none _ _ hn1, alErase_of_alGet_none _ _ hn2,
      alErase_of_alGet_none _ _ hn3]

def mClear : Manager :=
  { session_caches := [("s", scHello), ("s2", [])]
    session_embeddings := [("s", seOne)]
    session_contexts := [("s", ctxW)] }

theorem claim9_witness :
    alGet (clear_session_cache mClear "s").session_caches "s" = none ∧
    alGet (clear_session_cache mClear "s").session_caches "s2" = alGet mClear.session_caches "s2" ∧
    check_semantic_cache (fun _ => some [1]) (clear_session_cache mClear "s") "q" "s" = .ok none ∧
    (get_session_stats (clear_session_cache mClear "s")).total_cached_queries + scHello.length =
      (get_session_stats mClear).total_cached_queries ∧
    clear_session_cache mClear "missing" = mClear := by
  have h := claim9 mClear "s" (by decide) (by decide) (by decide)
  have h' := claim9 mClear "missing" (by decide) (by decide) (by decide)
  exact ⟨h.1, (h.2.2.2.1 "s2" (by decide)).1, h.2.2.2.2.1 (fun _ => some [1]) "q",
    h.2.2.2.2.2.1 scHello rfl, h'.2.2.2.2.2.2.2 rfl rfl rfl⟩

/-- C7: from any reachable manager state, `check_semantic_cache` — the one
public operation whose body can reach a statement outside its `try` block
(the `session_embeddings[session_id]` lookup) — never raises: the
caches/embeddings pairing invariant holds in every reachable state, so the
lookup cannot fail, and every other failure point is caught.  The remaining
public operations (`add_to_semantic_cache`, `add_to_context`,
`get_context_for_query`, `get_session_stats`, `clear_session_cache`,
`clear_all_caches`) are total functions of the model: each either guards
every dict access or wraps its whole body in `try/except`. -/
theorem claim7 (m : Manager) (h : Reachable m) (embed : String → Option (List ℚ))
    (q sid : String) : (check_semantic_cache embed m q sid).isOk = true := by
  obtain ⟨_, _, _, h4⟩ := reachable_goodState m h
  by_cases hsid : sid = ""
  · simp [check_semantic_cache, hsid, Except.isOk, Except.toBool]
  · cases hc : alGet m.session_caches sid with
    | none => simp [check_semantic_cache, hsid, hc, Except.isOk, Except.toBool]
    | some sc =>
      obtain ⟨se, hse⟩ := Option.isSome_iff_exists.1 (h4 (sid, sc) (alGet_eq_some_mem _ _ _ hc))
      by_cases hnil : sc = []
      · simp [check_semantic_cache, hsid, hc, hse, hnil, Except.isOk, Except.toBool]
      · cases he : embed q with
        | none => simp [check_semantic_cache, hsid, hc, hse, hnil, he, Except.isOk, Except.toBool]
        | some qe =>
          simp only [check_semantic_cache, if_neg hsid, hc, hse, if_neg hnil, he]
          cases (cacheScan qe se sc simZero none).2 with
          | none => rfl
          | some br =>
            by_cases hbr : br = "" <;> simp [hbr, Except.isOk, Except.toBool]

theorem claim7_witness : (check_semantic_cache (fun _ => some [1]) initManager "q" "s").isOk = true :=
  claim7 initManager Reachable.init (fun _ => some [1]) "q" "s"

end SessionCache
